import Mathlib

/-!
Shallow embedding of OSv's condition variable (core/condvar.cc) and proofs of
its specified properties.

Modelling conventions:
* A `wait_record` is identified by a natural number; its `next` pointer field
  lives in the condvar state's `next` map (pointer = `Option Nat`, `none` = null).
* A user mutex pointer is an `Option Nat` (`none` = null pointer).
* The `WAIT_MORPHING` compile-time flag is a `Bool` parameter `wm`.
* Loops over the linked list are written with explicit fuel; every theorem
  about them assumes fuel at least the length of the list, which is what the
  C loops implicitly rely on (the list is finite and acyclic).
* Concurrency: the embedding is sequential.  The state a waiter observes when
  it re-takes the internal mutex on the timeout path is an arbitrary input
  state (`cMid`), standing for whatever interleaved signallers did; whether
  `wr.wait(tmr)` returned because of a signal is an oracle Boolean.
-/

namespace OSV

/-- errno value returned on timeout (from errno.h). -/
def ETIMEDOUT : Nat := 110

/-- State of one `condvar`: the waiter FIFO head (`oldest`) and tail
(`newest`), the per-record `next` links (field of each `wait_record`,
manipulated only by the FIFO code), and the remembered user mutex pointer
used by wait morphing.  The internal mutex `m` guards all of it; the
sequential embedding does not represent the mutex itself. -/
structure CondvarState where
  oldest : Option Nat
  newest : Option Nat
  next : Nat → Option Nat
  user_mutex : Option Nat

/-- The list of records reachable from pointer `o` by following `next` links,
ending at null.  `chain nx o l` holds exactly when starting from `o` the
traversal visits the records of `l` in order and then reaches null.  The
existence of such a finite list is the acyclicity/finiteness invariant. -/
inductive chain (nx : Nat → Option Nat) : Option Nat → List Nat → Prop
  | nil : chain nx none []
  | cons (a : Nat) (o : Option Nat) (l : List Nat) :
      nx a = o → chain nx o l → chain nx (some a) (a :: l)

/-- A list segment: following `next` from `o` visits the records of `l` in
order and arrives at pointer `o2` (not necessarily null). -/
inductive seg (nx : Nat → Option Nat) : Option Nat → List Nat → Option Nat → Prop
  | nil (o : Option Nat) : seg nx o [] o
  | cons (a : Nat) (o o2 : Option Nat) (l : List Nat) :
      nx a = o → seg nx o l o2 → seg nx (some a) (a :: l) o2

/-- Well-formedness of the waiter FIFO relative to an explicit record list
`l`: `oldest` chains through exactly `l` to null and `newest` is the last
record of `l` (null when `l` is empty). -/
def WFl (c : CondvarState) (l : List Nat) : Prop :=
  chain c.next c.oldest l ∧ c.newest = l.getLast?

/-- FIFO well-formedness: some finite acyclic list describes the queue. -/
def WF (c : CondvarState) : Prop := ∃ l, WFl c l

/-- Enqueue phase of `condvar_wait` (condvar.cc lines 35-47): append the
fresh record `wr` at the FIFO tail, then (under `WAIT_MORPHING`) assert that
the remembered user mutex is null or equal to the supplied one and store the
supplied one.  `none` models the `assert` aborting the program. -/
def condvar_wait_enqueue (wm : Bool) (c : CondvarState) (wr : Nat)
    (um : Option Nat) : Option CondvarState :=
  let c1 :=
    if c.oldest = none then
      { c with oldest := some wr, newest := some wr }
    else
      { c with next := fun x => if c.newest = some x then some wr else c.next x,
               newest := some wr }
  if wm then
    if c.user_mutex = none ∨ c.user_mutex = um then
      some { c1 with user_mutex := um }
    else
      none
  else
    some c1

/-- The `while (p)` search loop of the timeout path (condvar.cc lines 67-77):
walk from `o` looking for the record whose `next` is `wr`; return that
predecessor, or `none` when the walk falls off the end of the list (record
not found).  Fuel bounds the walk; with fuel at least the list length the
result is exact. -/
def findPred (nx : Nat → Option Nat) (wr : Nat) :
    Nat → Option Nat → Option Nat
  | 0, _ => none
  | _ + 1, none => none
  | fuel + 1, some p =>
      if nx p = some wr then some p else findPred nx wr fuel (nx p)

/-- Timeout-path removal of `wr` from the FIFO (condvar.cc lines 60-82,
the body between `mutex_lock` and `mutex_unlock`).  Returns the new state and
whether the record was found and unlinked (`true` keeps `ret = ETIMEDOUT`;
`false` is the `if (!p) ret = 0` path).  Note this code never touches
`user_mutex`. -/
def condvar_timeout_remove (fuel : Nat) (c : CondvarState) (wr : Nat) :
    CondvarState × Bool :=
  if c.oldest = some wr then
    ({ c with oldest := c.next wr,
              newest := if c.next wr = none then none else c.newest }, true)
  else
    match findPred c.next wr fuel c.oldest with
    | some p =>
        let nx1 := fun x => if x = p then c.next wr else c.next x
        ({ c with next := nx1,
                  newest := if nx1 p = none then some p else c.newest }, true)
    | none => (c, false)

/-- Which action reacquires the user mutex at the end of `condvar_wait`
(condvar.cc lines 92-100): `receiveLock` is the wait-morphing
`user_mutex->receive_lock()` (non-blocking bookkeeping: ownership was already
transferred by the signaller), `mutexLock` is a plain `mutex_lock`. -/
inductive Reacquire where
  | receiveLock
  | mutexLock
deriving DecidableEq, Repr

/-- Observable outcome of one `condvar_wait` call: the returned errno,
whether the untimed second `wr.wait()` (condvar.cc line 88) was executed, and
which user-mutex reacquisition action ran.  Exactly one reacquisition action
happens per call by construction. -/
structure WaitOutcome where
  ret : Nat
  secondWait : Bool
  reacquire : Reacquire
deriving DecidableEq, Repr

/-- Resume phase of `condvar_wait` (condvar.cc lines 57-102), entered after
`wr.wait(tmr)` returned.  `woken1` is the value of `wr.woken()` at line 57;
`c` is the condvar state the waiter observes when it re-takes the internal
mutex (concurrent signallers may have changed it since enqueue).  Per the
protocol, the record's `woken` flag is set only by a signaller that detached
the record, so: on the not-found path the second untimed `wr.wait()` returns
only once `woken` is true, and on the successfully-removed path `woken`
stays false (no signaller ever saw the record). -/
def condvar_wait_resume (wm : Bool) (fuel : Nat) (c : CondvarState) (wr : Nat)
    (woken1 : Bool) : CondvarState × WaitOutcome :=
  if woken1 then
    (c, { ret := 0, secondWait := false,
          reacquire := if wm then .receiveLock else .mutexLock })
  else
    let r := condvar_timeout_remove fuel c wr
    if r.2 then
      (r.1, { ret := ETIMEDOUT, secondWait := false, reacquire := .mutexLock })
    else
      (r.1, { ret := 0, secondWait := true,
              reacquire := if wm then .receiveLock else .mutexLock })

/-- Modelled from the spec: `wait_record::wait(timer*)` (wait_record.hh is
not part of the given sources).  Spec 4.1: "blocks the current thread until
`woken` is true or `timer` fires.  If `timer` is absent, no timeout."  So the
call returns with `woken() = false` only when a timer was supplied and fired
first; `signalled` is the oracle for whether a signaller set `woken` first. -/
def waitReturnsWoken (tmr : Option Nat) (signalled : Bool) : Bool :=
  signalled || tmr.isNone

/-- Whole `condvar_wait` with a timer pointer (condvar.cc lines 29-103).
`cMid` is the state observed on the timeout path after re-locking the
internal mutex; `signalled` tells whether a signaller set `woken` before the
timer fired.  Result `none` models the wait-morphing assert aborting. -/
def condvar_wait_tmr (wm : Bool) (fuel : Nat) (c : CondvarState) (wr : Nat)
    (um : Option Nat) (tmr : Option Nat) (cMid : CondvarState)
    (signalled : Bool) : Option (CondvarState × WaitOutcome) :=
  (condvar_wait_enqueue wm c wr um).map fun _ =>
    condvar_wait_resume wm fuel cMid wr (waitReturnsWoken tmr signalled)

/-- The integer-expiration overload of `condvar_wait` (condvar.cc lines
18-27): expiration `0` means no timer at all; a non-zero expiration arms a
timer set to that absolute time (modelled as `some expiration`). -/
def condvar_wait_int (wm : Bool) (fuel : Nat) (c : CondvarState) (wr : Nat)
    (um : Option Nat) (expiration : Nat) (cMid : CondvarState)
    (signalled : Bool) : Option (CondvarState × WaitOutcome) :=
  if expiration ≠ 0 then
    condvar_wait_tmr wm fuel c wr um (some expiration) cMid signalled
  else
    condvar_wait_tmr wm fuel c wr um none cMid signalled

/-- One handoff event performed by a signaller: `sendLock m r` is
`m->send_lock(r)` (wait morphing; `m` is the user-mutex pointer that is
dereferenced), `wake r` is `r->wake()`. -/
inductive Handoff where
  | sendLock (m : Option Nat) (r : Nat)
  | wake (r : Nat)
deriving DecidableEq, Repr

/-- The record a handoff event targets. -/
def Handoff.target : Handoff → Nat
  | .sendLock _ r => r
  | .wake r => r

/-- `condvar_wake_one` (condvar.cc lines 105-137).  Returns the new state and
the handoff events performed (zero or one).  The unlocked fast-path check and
the re-read under the lock read the same state in this sequential embedding. -/
def condvar_wake_one (wm : Bool) (c : CondvarState) :
    CondvarState × List Handoff :=
  if c.oldest = none then (c, [])
  else
    match c.oldest with
    | none => (c, [])
    | some wr =>
        let c1 := { c with oldest := c.next wr,
                           newest := if c.next wr = none then none
                                     else c.newest }
        if wm then
          let h := Handoff.sendLock c1.user_mutex wr
          let c2 := if c1.oldest = none then { c1 with user_mutex := none }
                    else c1
          (c2, [h])
        else
          (c1, [Handoff.wake wr])

/-- The non-morphing walk of `condvar_wake_all` (condvar.cc lines 156-183
with `WAIT_MORPHING` off): follow the detached chain, calling `wr->wake()` on
each record.  Returns the records in handoff order. -/
def simpleWalk (nx : Nat → Option Nat) : Nat → Option Nat → List Nat
  | 0, _ => []
  | _ + 1, none => []
  | fuel + 1, some wr => wr :: simpleWalk nx fuel (nx wr)

/-- The inner CPU-affinity grouping loop of `condvar_wake_all` (condvar.cc
lines 164-178): scan the chain from `r`, and for every record on the same CPU
as the record just handed off, `send_lock` it immediately and splice it out
of the chain (advancing `next_wr` when it is the spliced record, otherwise
rewriting `prevr->next`).  State threaded: the `next` map, the scan cursor
`r`, the pending outer cursor `next_wr`, the last kept record `prevr`, and
the handoffs accumulated so far.  Returns the final `next` map, `next_wr`
and handoff list.  In every execution reached from a well-formed chain,
`prevr` is non-null whenever it is dereferenced; the model makes the
(unreachable) null write a no-op. -/
def wakeAllInner (cpu : Nat → Nat) (cpu_wr : Nat) :
    Nat → (Nat → Option Nat) → Option Nat → Option Nat → Option Nat →
    List Nat → (Nat → Option Nat) × Option Nat × List Nat
  | 0, nx, _, next_wr, _, hs => (nx, next_wr, hs)
  | _ + 1, nx, none, next_wr, _, hs => (nx, next_wr, hs)
  | fuel + 1, nx, some r, next_wr, prevr, hs =>
      let nextr := nx r
      if cpu r = cpu_wr then
        if some r = next_wr then
          wakeAllInner cpu cpu_wr fuel nx nextr nextr prevr (hs ++ [r])
        else
          let nx1 := fun x => if some x = prevr then nextr else nx x
          wakeAllInner cpu cpu_wr fuel nx1 nextr next_wr prevr (hs ++ [r])
      else
        wakeAllInner cpu cpu_wr fuel nx nextr next_wr (some r) hs

/-- The outer walk of `condvar_wake_all` in wait-morphing mode (condvar.cc
lines 156-183): hand off the head record, run the affinity grouping loop
over the rest of the chain, then continue from the surviving `next_wr`.
`cpu` models `wait_record::thread()->tcpu()` (record to CPU; the thread and
scheduler objects are not part of the given sources — modelled from the
spec's external contract, section 6). -/
def wakeAllOuter (cpu : Nat → Nat) :
    Nat → (Nat → Option Nat) → Option Nat → List Nat →
    (Nat → Option Nat) × List Nat
  | 0, nx, _, hs => (nx, hs)
  | _ + 1, nx, none, hs => (nx, hs)
  | fuel + 1, nx, some wr, hs =>
      let next_wr := nx wr
      let cpu_wr := cpu wr
      let w := wakeAllInner cpu cpu_wr (fuel + 1) nx next_wr next_wr none
                 (hs ++ [wr])
      wakeAllOuter cpu fuel w.1 w.2.1 w.2.2

/-- `condvar_wake_all` (condvar.cc lines 139-184).  Snapshot and clear the
FIFO (and, in wait-morphing mode, the remembered user mutex) under the
internal mutex, then walk the snapshot performing one handoff per record:
`send_lock` through the snapshotted user mutex in morphing mode (with the
CPU-affinity grouping), `wake()` otherwise. -/
def condvar_wake_all (wm : Bool) (cpu : Nat → Nat) (fuel : Nat)
    (c : CondvarState) : CondvarState × List Handoff :=
  if c.oldest = none then (c, [])
  else
    let wr := c.oldest
    let um := c.user_mutex
    if wm then
      let w := wakeAllOuter cpu fuel c.next wr []
      ({ c with oldest := none, newest := none, user_mutex := none,
                next := w.1 },
       w.2.map (Handoff.sendLock um))
    else
      ({ c with oldest := none, newest := none },
       (simpleWalk c.next fuel wr).map Handoff.wake)

/-! Basic facts about `chain` and `seg`. -/

theorem chain_none_iff {nx : Nat → Option Nat} {l : List Nat}
    (h : chain nx none l) : l = [] := by
  cases h; rfl

theorem chain_head {nx : Nat → Option Nat} {a : Nat} {t : List Nat}
    {o : Option Nat} (h : chain nx o (a :: t)) : o = some a := by
  cases h; rfl

theorem chain_nil_inv {nx : Nat → Option Nat} {o : Option Nat}
    (h : chain nx o []) : o = none := by
  cases h; rfl

theorem chain_cons_inv {nx : Nat → Option Nat} {a : Nat} {l : List Nat}
    (h : chain nx (some a) l) : ∃ t, l = a :: t ∧ chain nx (nx a) t := by
  cases h with
  | cons _ o t ha hc => exact ⟨t, rfl, ha ▸ hc⟩

theorem chain_det {nx : Nat → Option Nat} {o : Option Nat} {l : List Nat}
    (h : chain nx o l) : ∀ {l2 : List Nat}, chain nx o l2 → l = l2 := by
  induction h with
  | nil => intro l2 h2; cases h2; rfl
  | cons a o t ha hc ih =>
      intro l2 h2
      cases h2 with
      | cons _ o2 t2 ha2 hc2 =>
          have : o = o2 := by rw [← ha, ← ha2]
          subst this
          rw [ih hc2]

theorem seg_head {nx : Nat → Option Nat} {a : Nat} {t : List Nat}
    {o o2 : Option Nat} (h : seg nx o (a :: t) o2) : o = some a := by
  cases h; rfl

theorem seg_nil_inv {nx : Nat → Option Nat} {o o2 : Option Nat}
    (h : seg nx o [] o2) : o = o2 := by
  cases h; rfl

theorem chain_to_seg {nx : Nat → Option Nat} {o : Option Nat} {l : List Nat}
    (h : chain nx o l) : seg nx o l none := by
  induction h with
  | nil => exact seg.nil none
  | cons a o t ha _ ih => exact seg.cons a o none t ha ih

theorem seg_none_chain {nx : Nat → Option Nat} {o : Option Nat} {l : List Nat}
    (h : seg nx o l none) : chain nx o l := by
  induction l generalizing o with
  | nil => cases h; exact chain.nil
  | cons a t ih =>
      cases h with
      | cons _ o2 _ _ ha hs => exact chain.cons a o2 t ha (ih hs)

theorem seg_append {nx : Nat → Option Nat} {o1 o2 o3 : Option Nat}
    {l1 l2 : List Nat} (h1 : seg nx o1 l1 o2) (h2 : seg nx o2 l2 o3) :
    seg nx o1 (l1 ++ l2) o3 := by
  induction h1 with
  | nil => exact h2
  | cons a o ob t ha _ ih => exact seg.cons a o o3 (t ++ l2) ha (ih h2)

theorem seg_chain_append {nx : Nat → Option Nat} {o1 o2 : Option Nat}
    {l1 l2 : List Nat} (h1 : seg nx o1 l1 o2) (h2 : chain nx o2 l2) :
    chain nx o1 (l1 ++ l2) :=
  seg_none_chain (seg_append h1 (chain_to_seg h2))

theorem chain_split {nx : Nat → Option Nat} {o : Option Nat}
    {l1 l2 : List Nat} (h : chain nx o (l1 ++ l2)) :
    ∃ o2, seg nx o l1 o2 ∧ chain nx o2 l2 := by
  induction l1 generalizing o with
  | nil => exact ⟨o, seg.nil o, h⟩
  | cons a t ih =>
      have ho : o = some a := chain_head h
      subst ho
      obtain ⟨t2, he, hc⟩ := chain_cons_inv h
      have he2 : t ++ l2 = t2 := by simpa using he
      obtain ⟨o2, hs, hc2⟩ := ih (he2 ▸ hc)
      exact ⟨o2, seg.cons a (nx a) o2 t rfl hs, hc2⟩

theorem seg_split {nx : Nat → Option Nat} {o o3 : Option Nat}
    {l1 l2 : List Nat} (h : seg nx o (l1 ++ l2) o3) :
    ∃ o2, seg nx o l1 o2 ∧ seg nx o2 l2 o3 := by
  induction l1 generalizing o with
  | nil => exact ⟨o, seg.nil o, h⟩
  | cons a t ih =>
      cases h with
      | cons _ o2 _ _ ha hs =>
          obtain ⟨ob, hs1, hs2⟩ := ih hs
          exact ⟨ob, seg.cons a o2 ob t ha hs1, hs2⟩

theorem chain_nodup {nx : Nat → Option Nat} {o : Option Nat} {l : List Nat}
    (h : chain nx o l) : l.Nodup := by
  induction h with
  | nil => exact List.nodup_nil
  | cons a o t ha hc ih =>
      refine List.nodup_cons.2 ⟨?_, ih⟩
      intro hmem
      obtain ⟨l1, l2, rfl⟩ := List.append_of_mem hmem
      obtain ⟨o2, _, hc2⟩ := chain_split hc
      have ho2 : o2 = some a := chain_head hc2
      have h1 : chain nx (some a) (a :: (l1 ++ a :: l2)) :=
        chain.cons a o (l1 ++ a :: l2) ha hc
      have h2 : chain nx (some a) (a :: l2) := ho2 ▸ hc2
      have := chain_det h1 h2
      have hlen : (a :: (l1 ++ a :: l2)).length = (a :: l2).length := by
        rw [this]
      simp at hlen
      omega

theorem seg_stable {nx nx1 : Nat → Option Nat} {o o2 : Option Nat}
    {l : List Nat} (hagree : ∀ x ∈ l, nx1 x = nx x) (h : seg nx o l o2) :
    seg nx1 o l o2 := by
  induction h with
  | nil => exact seg.nil _
  | cons a ob oc t ha _ ih =>
      refine seg.cons a ob oc t ?_ (ih fun x hx => hagree x (by simp [hx]))
      rw [hagree a (by simp), ha]

theorem chain_stable {nx nx1 : Nat → Option Nat} {o : Option Nat}
    {l : List Nat} (hagree : ∀ x ∈ l, nx1 x = nx x) (h : chain nx o l) :
    chain nx1 o l :=
  seg_none_chain (seg_stable hagree (chain_to_seg h))

/-- Retarget the last link of a segment: rewriting only the `next` field of
the final record `b` (to `v`) turns a segment ending at `o2` into one ending
at `v`. -/
theorem seg_retarget {nx nx1 : Nat → Option Nat} {o o2 v : Option Nat}
    {t : List Nat} {b : Nat} (h : seg nx o (t ++ [b]) o2)
    (hagree : ∀ x ∈ t, nx1 x = nx x) (hv : nx1 b = v) :
    seg nx1 o (t ++ [b]) v := by
  obtain ⟨ob, hs1, hs2⟩ := seg_split h
  have hob : ob = some b := seg_head hs2
  subst hob
  refine seg_append (seg_stable hagree hs1) ?_
  exact seg.cons b v v [] hv (seg.nil v)

/-! Correctness of the timeout-path search and removal. -/

theorem findPred_not_mem {nx : Nat → Option Nat} {o : Option Nat}
    {l : List Nat} {wr : Nat} (h : chain nx o l) (hmem : wr ∉ l) :
    ∀ fuel, findPred nx wr fuel o = none := by
  induction h with
  | nil =>
      intro fuel
      cases fuel <;> rfl
  | cons a o t ha hc ih =>
      intro fuel
      cases fuel with
      | zero => rfl
      | succ f =>
          have hne : nx a ≠ some wr := by
            intro he
            rw [ha] at he
            subst he
            obtain ⟨t2, rfl, _⟩ := chain_cons_inv hc
            exact hmem (by simp)
          simp only [findPred, if_neg hne]
          rw [ha]
          exact ih (fun hm => hmem (by simp [hm])) f

theorem findPred_of_seg {nx : Nat → Option Nat} {p wr : Nat} :
    ∀ {t : List Nat} {o : Option Nat}, seg nx o t (some p) →
      nx p = some wr → wr ∉ t → wr ≠ p →
      ∀ fuel, t.length < fuel → findPred nx wr fuel o = some p := by
  intro t
  induction t with
  | nil =>
      intro o h hp _ _ fuel hfuel
      have ho : o = some p := seg_nil_inv h
      subst ho
      cases fuel with
      | zero => omega
      | succ f => simp [findPred, hp]
  | cons a l ih =>
      intro o h hp hw hwp fuel hfuel
      have ho : o = some a := seg_head h
      subst ho
      have hs : seg nx (nx a) l (some p) := by
        cases h with
        | cons _ ob _ _ ha hsn => exact ha ▸ hsn
      cases fuel with
      | zero => omega
      | succ f =>
          have hne : nx a ≠ some wr := by
            intro he
            rw [he] at hs
            cases l with
            | nil => exact hwp (Option.some_injective _ (seg_nil_inv hs))
            | cons b l2 =>
                have hb : (some wr : Option Nat) = some b := seg_head hs
                refine hw ?_
                rw [Option.some_injective _ hb]
                simp
          simp only [findPred, if_neg hne]
          exact ih hs hp (fun hm => hw (by simp [hm])) hwp f
            (by simp at hfuel ⊢; omega)

/-- The timeout-path removal never modifies the remembered user mutex. -/
theorem remove_user_mutex (fuel : Nat) (c : CondvarState) (wr : Nat) :
    (condvar_timeout_remove fuel c wr).1.user_mutex = c.user_mutex := by
  unfold condvar_timeout_remove
  split
  · rfl
  · split <;> rfl

/-- The timeout-path removal never modifies `oldest` except through the
record being the head, and is the identity when the record is absent. -/
theorem remove_not_mem {c : CondvarState} {l : List Nat} {wr : Nat}
    (hwf : WFl c l) (hmem : wr ∉ l) (fuel : Nat) :
    condvar_timeout_remove fuel c wr = (c, false) := by
  obtain ⟨hc, _⟩ := hwf
  have honot : c.oldest ≠ some wr := by
    intro he
    obtain ⟨t, rfl, _⟩ := chain_cons_inv (he ▸ hc)
    exact hmem (by simp)
  unfold condvar_timeout_remove
  rw [if_neg honot, findPred_not_mem hc hmem fuel]

/-- Removal of a present record: the record is unlinked, the remaining
records keep their order, and `newest` is correctly maintained (including
head, interior and tail removal). -/
theorem remove_found {c : CondvarState} {l1 l2 : List Nat} {wr : Nat}
    (hwf : WFl c (l1 ++ wr :: l2)) {fuel : Nat} (hfuel : l1.length ≤ fuel) :
    (condvar_timeout_remove fuel c wr).2 = true ∧
    WFl (condvar_timeout_remove fuel c wr).1 (l1 ++ l2) := by
  obtain ⟨hc, hnew⟩ := hwf
  have hnd : (l1 ++ wr :: l2).Nodup := chain_nodup hc
  obtain ⟨hnd1, hnd2, hdisj⟩ := List.nodup_append.mp hnd
  have hwrl1 : wr ∉ l1 := fun hm => hdisj hm (by simp)
  obtain ⟨o2, hseg, hc2⟩ := chain_split hc
  have ho2 : o2 = some wr := chain_head hc2
  subst ho2
  have hcwr : chain c.next (c.next wr) l2 := by
    cases hc2 with
    | cons _ ob _ ha hcn => exact ha ▸ hcn
  cases l1 with
  | nil =>
      -- head removal: the record is `oldest` itself
      have ho : c.oldest = some wr := seg_nil_inv hseg
      have hbranch : condvar_timeout_remove fuel c wr =
          ({ c with oldest := c.next wr,
                    newest := if c.next wr = none then none else c.newest },
           true) := by
        unfold condvar_timeout_remove
        rw [if_pos ho]
      rw [hbranch]
      refine ⟨rfl, hcwr, ?_⟩
      by_cases hn : c.next wr = none
      · rw [hn] at hcwr
        rw [chain_none_iff hcwr]
        simp [hn]
      · have hl2 : l2 ≠ [] := by
          intro he
          rw [he] at hcwr
          exact hn (chain_nil_inv hcwr)
        rw [if_neg hn, hnew]
        have h1 : ([] ++ wr :: l2 : List Nat) = [wr] ++ l2 := by simp
        rw [h1, List.getLast?_append_of_ne_nil _ hl2]
        simp
  | cons a t =>
      -- interior or tail removal through the predecessor search
      obtain ⟨t0, p, hconcat⟩ :=
        (a :: t).eq_nil_or_concat.resolve_left (by simp)
      rw [List.concat_eq_append] at hconcat
      rw [hconcat] at hseg hnd1 hwrl1 hdisj hnew hfuel ⊢
      have honot : c.oldest ≠ some wr := by
        intro he
        obtain ⟨x, xs, hx⟩ := List.exists_cons_of_ne_nil
          (show t0 ++ [p] ≠ [] by simp)
        rw [hx] at hseg
        have hxo : c.oldest = some x := seg_head hseg
        rw [he] at hxo
        have hwx : wr = x := Option.some_injective _ hxo
        refine hwrl1 ?_
        rw [hx, hwx]
        simp
      obtain ⟨ob, hs1, hs2⟩ := seg_split hseg
      have hob : ob = some p := seg_head hs2
      subst hob
      have hplink : c.next p = some wr := by
        cases hs2 with
        | cons _ ob2 _ _ ha hsn =>
            rw [ha]
            exact seg_nil_inv hsn
      have hpl1 : p ∈ t0 ++ [p] := by simp
      have hwp : wr ≠ p := fun he => hwrl1 (he ▸ hpl1)
      have hpl2 : p ∉ l2 := fun hm => hdisj hpl1 (by simp [hm])
      have hpt0 : p ∉ t0 := by
        obtain ⟨_, _, hd⟩ := List.nodup_append.mp hnd1
        exact fun hm => hd hm (by simp)
      have hwt0 : wr ∉ t0 := fun hm => hwrl1 (by simp [hm])
      have hfind : findPred c.next wr fuel c.oldest = some p :=
        findPred_of_seg hs1 hplink hwt0 hwp fuel (by simp at hfuel; omega)
      have hbranch : condvar_timeout_remove fuel c wr =
          ({ c with
              next := fun x => if x = p then c.next wr else c.next x,
              newest := if (fun x => if x = p then c.next wr else c.next x) p
                          = none then some p else c.newest }, true) := by
        unfold condvar_timeout_remove
        rw [if_neg honot, hfind]
      rw [hbranch]
      set nx1 : Nat → Option Nat :=
        fun x => if x = p then c.next wr else c.next x with hnx1
      have hagr0 : ∀ x ∈ t0, nx1 x = c.next x := by
        intro x hx
        have hxp : x ≠ p := fun he => hpt0 (he ▸ hx)
        simp [hnx1, hxp]
      have hseg1 : seg nx1 c.oldest (t0 ++ [p]) (c.next wr) :=
        seg_retarget hseg hagr0 (by simp [hnx1])
      have hch2 : chain nx1 (c.next wr) l2 :=
        chain_stable (fun x hx => by
          have hxp : x ≠ p := fun he => hpl2 (he ▸ hx)
          simp [hnx1, hxp]) hcwr
      have hnp : nx1 p = c.next wr := by simp [hnx1]
      refine ⟨rfl, seg_chain_append hseg1 hch2, ?_⟩
      rw [hnp]
      by_cases hn : c.next wr = none
      · rw [if_pos hn]
        rw [hn] at hcwr
        rw [chain_none_iff hcwr]
        simp
      · have hl2 : l2 ≠ [] := by
          intro he
          rw [he] at hcwr
          exact hn (chain_nil_inv hcwr)
        rw [if_neg hn, hnew]
        rw [List.getLast?_append_of_ne_nil _ hl2,
            List.getLast?_append_of_ne_nil _ (show wr :: l2 ≠ [] by simp)]
        rw [show (wr :: l2) = [wr] ++ l2 from rfl,
            List.getLast?_append_of_ne_nil _ hl2]

/-! Enqueue, wake-one and the plain wake-all walk. -/

theorem simpleWalk_spec {nx : Nat → Option Nat} {o : Option Nat}
    {l : List Nat} (h : chain nx o l) :
    ∀ {fuel : Nat}, l.length ≤ fuel → simpleWalk nx fuel o = l := by
  induction h with
  | nil =>
      intro fuel _
      cases fuel <;> rfl
  | cons a ob t ha _ ih =>
      intro fuel hf
      cases fuel with
      | zero => simp at hf
      | succ f =>
          simp only [simpleWalk, ha]
          rw [ih (by simp at hf; omega)]

theorem enqueue_wf {wm : Bool} {c : CondvarState} {l : List Nat} {wr : Nat}
    {um : Option Nat} {c1 : CondvarState} (hwf : WFl c l)
    (hfresh : c.next wr = none) (hmem : wr ∉ l)
    (henq : condvar_wait_enqueue wm c wr um = some c1) :
    WFl c1 (l ++ [wr]) := by
  obtain ⟨hc, hnew⟩ := hwf
  have hbase : WFl
      (if c.oldest = none then
        { c with oldest := some wr, newest := some wr }
      else
        { c with next := fun x => if c.newest = some x then some wr
                                  else c.next x,
                 newest := some wr }) (l ++ [wr]) := by
    by_cases hno : c.oldest = none
    · rw [if_pos hno]
      rw [hno] at hc
      rw [chain_none_iff hc]
      exact ⟨chain.cons wr none [] hfresh chain.nil, by simp⟩
    · rw [if_neg hno]
      have hlne : l ≠ [] := by
        intro he
        rw [he] at hc
        exact hno (chain_nil_inv hc)
      obtain ⟨t0, b, hcb⟩ := l.eq_nil_or_concat.resolve_left hlne
      rw [List.concat_eq_append] at hcb
      subst hcb
      have hnewb : c.newest = some b := by
        rw [hnew, List.getLast?_concat]
      have hbt0 : b ∉ t0 := by
        obtain ⟨_, _, hd⟩ := List.nodup_append.mp (chain_nodup hc)
        exact fun hm => hd hm (by simp)
      have hbwr : b ≠ wr := by
        intro he
        exact hmem (by rw [← he]; simp)
      set upd : Nat → Option Nat :=
        fun x => if c.newest = some x then some wr else c.next x with hupd
      have hsg : seg upd c.oldest (t0 ++ [b]) (some wr) := by
        refine seg_retarget (chain_to_seg hc) ?_ ?_
        · intro x hx
          have hxb : ¬ c.newest = some x := by
            rw [hnewb]
            intro he
            refine hbt0 ?_
            rw [Option.some_injective _ he]
            exact hx
          simp [hupd, hxb]
        · simp [hupd, hnewb]
      have hwrupd : upd wr = none := by
        have hnwr : ¬ c.newest = some wr := by
          rw [hnewb]
          intro he
          exact hbwr (Option.some_injective _ he)
        simp [hupd, hnwr, hfresh]
      exact ⟨seg_chain_append hsg (chain.cons wr none [] hwrupd chain.nil),
             by simp⟩
  cases wm with
  | false =>
      simp only [condvar_wait_enqueue, Bool.false_eq_true, if_false,
        Option.some.injEq] at henq
      exact henq ▸ hbase
  | true =>
      simp only [condvar_wait_enqueue, if_true] at henq
      split at henq
      · simp only [Option.some.injEq] at henq
        exact henq ▸ hbase
      · exact absurd henq (by simp)

theorem wake_one_empty {wm : Bool} {c : CondvarState} {l : List Nat}
    (hwf : WFl c l) (he : l = []) : condvar_wake_one wm c = (c, []) := by
  subst he
  have ho : c.oldest = none := chain_nil_inv hwf.1
  simp [condvar_wake_one, ho]

theorem wake_one_cons {wm : Bool} {c : CondvarState} {a : Nat}
    {rest : List Nat} (hwf : WFl c (a :: rest)) :
    (condvar_wake_one wm c).2.map Handoff.target = [a] ∧
    WFl (condvar_wake_one wm c).1 rest := by
  obtain ⟨hc, hnew⟩ := hwf
  have ho : c.oldest = some a := chain_head hc
  have hcr : chain c.next (c.next a) rest := by
    rw [ho] at hc
    cases hc with
    | cons _ ob _ ha hcn => exact ha ▸ hcn
  have hnw : (if c.next a = none then none else c.newest) = rest.getLast? := by
    by_cases hn : c.next a = none
    · rw [if_pos hn]
      rw [hn] at hcr
      rw [chain_none_iff hcr]
      rfl
    · have hrne : rest ≠ [] := fun he2 => hn (chain_nil_inv (he2 ▸ hcr))
      rw [if_neg hn, hnew, show (a :: rest) = [a] ++ rest from rfl,
          List.getLast?_append_of_ne_nil _ hrne]
  cases wm with
  | false =>
      refine ⟨by simp [condvar_wake_one, ho, Handoff.target], ?_, ?_⟩
      · simpa [condvar_wake_one, ho] using hcr
      · simpa [condvar_wake_one, ho] using hnw
  | true =>
      by_cases hoo : c.next a = none
      · refine ⟨by simp [condvar_wake_one, ho, hoo, Handoff.target], ?_, ?_⟩
        · simpa [condvar_wake_one, ho, hoo] using hcr
        · simpa [condvar_wake_one, ho, hoo] using hnw
      · refine ⟨by simp [condvar_wake_one, ho, hoo, Handoff.target], ?_, ?_⟩
        · simpa [condvar_wake_one, ho, hoo] using hcr
        · simpa [condvar_wake_one, ho, hoo] using hnw

/-! Correctness of the wake-all affinity-grouping walk.  The invariant:
`kept` is the prefix of not-yet-matched records already scanned, reachable
from `next_wr` and ending at the scan cursor `r`; `rest` is the unscanned
suffix; `prevr` is the last kept record.  The loop emits exactly the
same-CPU records of `rest` (in order) and leaves the kept chain intact. -/

theorem wakeAllInner_spec (cpu : Nat → Nat) (cw : Nat) :
    ∀ (rest : List Nat) (fuel : Nat) (nx : Nat → Option Nat)
      (r next_wr : Option Nat) (kept : List Nat) (hs : List Nat),
      chain nx r rest → seg nx next_wr kept r →
      (kept ++ rest).Nodup → rest.length ≤ fuel →
      ∃ nx2 nw2,
        wakeAllInner cpu cw fuel nx r next_wr kept.getLast? hs =
          (nx2, nw2, hs ++ rest.filter (fun x => cpu x == cw)) ∧
        chain nx2 nw2 (kept ++ rest.filter (fun x => ! (cpu x == cw))) := by
  intro rest
  induction rest with
  | nil =>
      intro fuel nx r next_wr kept hs hch hseg _ _
      have hr : r = none := chain_nil_inv hch
      subst hr
      refine ⟨nx, next_wr, ?_, ?_⟩
      · cases fuel <;> simp [wakeAllInner]
      · simpa using seg_none_chain hseg
  | cons b rest2 ih =>
      intro fuel nx r next_wr kept hs hch hseg hnd hfl
      have hr : r = some b := chain_head hch
      subst hr
      have hcr : chain nx (nx b) rest2 := by
        cases hch with
        | cons _ ob _ ha hcn => exact ha ▸ hcn
      cases fuel with
      | zero => simp at hfl
      | succ f =>
          have hstep : ∀ pv : Option Nat,
              wakeAllInner cpu cw (f + 1) nx (some b) next_wr pv hs =
                if cpu b = cw then
                  if some b = next_wr then
                    wakeAllInner cpu cw f nx (nx b) (nx b) pv (hs ++ [b])
                  else
                    wakeAllInner cpu cw f
                      (fun x => if some x = pv then nx b else nx x)
                      (nx b) next_wr pv (hs ++ [b])
                else
                  wakeAllInner cpu cw f nx (nx b) next_wr (some b) hs :=
            fun _ => rfl
          by_cases hm : cpu b = cw
          · by_cases hnwb : (some b : Option Nat) = next_wr
            · -- the spliced record is `next_wr` itself: nothing kept yet
              have hkept : kept = [] := by
                cases kept with
                | nil => rfl
                | cons k ks =>
                    exfalso
                    have hk : next_wr = some k := seg_head hseg
                    rw [← hnwb] at hk
                    have hbk : b = k := Option.some_injective _ hk
                    subst hbk
                    simp [List.nodup_append] at hnd
              subst hkept
              have hrnd : rest2.Nodup := by
                simpa using (List.nodup_cons.mp (by simpa using hnd)).2
              obtain ⟨nx2, nw2, heq, hchn⟩ :=
                ih f nx (nx b) (nx b) [] (hs ++ [b]) hcr (seg.nil _)
                  (by simpa using hrnd) (by simp at hfl; omega)
              refine ⟨nx2, nw2, ?_, ?_⟩
              · rw [hstep, if_pos hm, if_pos hnwb]
                rw [heq]
                simp [hm]
              · simpa [hm] using hchn
            · -- splice through `prevr`, which is the last kept record
              have hkne : kept ≠ [] := by
                intro hk
                rw [hk] at hseg
                exact hnwb (seg_nil_inv hseg).symm
              obtain ⟨kt, kp, hkc⟩ := kept.eq_nil_or_concat.resolve_left hkne
              rw [List.concat_eq_append] at hkc
              subst hkc
              have hkpkt : kp ∉ kt := by
                obtain ⟨h1, _, _⟩ := List.nodup_append.mp hnd
                obtain ⟨_, _, hd⟩ := List.nodup_append.mp h1
                exact fun hmm => hd hmm (by simp)
              have hdisj : (kt ++ [kp]).Disjoint (b :: rest2) :=
                (List.nodup_append.mp hnd).2.2
              have hkpr2 : kp ∉ rest2 := fun hmm =>
                hdisj (show kp ∈ kt ++ [kp] by simp)
                  (show kp ∈ b :: rest2 by simp [hmm])
              set nx1 : Nat → Option Nat :=
                fun x => if some x = some kp then nx b else nx x with hnx1
              have hseg1 : seg nx1 next_wr (kt ++ [kp]) (nx b) := by
                refine seg_retarget hseg ?_ ?_
                · intro x hx
                  have hxkp : x ≠ kp := fun he => hkpkt (he ▸ hx)
                  simp [hnx1, hxkp]
                · simp [hnx1]
              have hch1 : chain nx1 (nx b) rest2 := by
                refine chain_stable ?_ hcr
                intro x hx
                have hxkp : x ≠ kp := fun he => hkpr2 (he ▸ hx)
                simp [hnx1, hxkp]
              have hnd1 : ((kt ++ [kp]) ++ rest2).Nodup := by
                have hsub : List.Sublist ((kt ++ [kp]) ++ rest2)
                    ((kt ++ [kp]) ++ b :: rest2) :=
                  List.Sublist.append_left (List.sublist_cons_self _ _) _
                exact List.Nodup.sublist hsub hnd
              obtain ⟨nx2, nw2, heq, hchn⟩ :=
                ih f nx1 (nx b) next_wr (kt ++ [kp]) (hs ++ [b]) hch1 hseg1
                  hnd1 (by simp at hfl; omega)
              rw [List.getLast?_concat] at heq
              refine ⟨nx2, nw2, ?_, ?_⟩
              · rw [hstep, if_pos hm, if_neg hnwb]
                rw [List.getLast?_concat]
                rw [show (fun x => if some x = some kp then nx b else nx x)
                      = nx1 from rfl]
                rw [heq]
                simp [hm]
              · simpa [hm] using hchn
          · -- record on another CPU: keep it, advance `prevr`
            have hnd2 : ((kept ++ [b]) ++ rest2).Nodup := by
              rw [List.append_assoc]
              exact hnd
            have hseg2 : seg nx next_wr (kept ++ [b]) (nx b) :=
              seg_append hseg
                (seg.cons b (nx b) (nx b) [] rfl (seg.nil _))
            obtain ⟨nx2, nw2, heq, hchn⟩ :=
              ih f nx (nx b) next_wr (kept ++ [b]) hs hcr hseg2 hnd2
                (by simp at hfl; omega)
            rw [List.getLast?_concat] at heq
            refine ⟨nx2, nw2, ?_, ?_⟩
            · rw [hstep, if_neg hm]
              rw [heq]
              simp [hm]
            · rw [show kept ++ (b :: rest2).filter (fun x => ! (cpu x == cw))
                    = (kept ++ [b]) ++ rest2.filter (fun x => ! (cpu x == cw))
                  by simp [hm, List.append_assoc]]
              exact hchn

theorem wakeAllOuter_spec (cpu : Nat → Nat) :
    ∀ (fuel : Nat) (l : List Nat) (nx : Nat → Option Nat) (o : Option Nat)
      (hs : List Nat), chain nx o l → l.length ≤ fuel →
      ∃ nx2 w, wakeAllOuter cpu fuel nx o hs = (nx2, hs ++ w) ∧
        List.Perm w l := by
  intro fuel
  induction fuel with
  | zero =>
      intro l nx o hs hch hfl
      have hl : l = [] := List.length_eq_zero.mp (Nat.le_zero.mp hfl)
      subst hl
      exact ⟨nx, [], by simp [wakeAllOuter], List.Perm.refl _⟩
  | succ f ih =>
      intro l nx o hs hch hfl
      cases l with
      | nil =>
          have ho : o = none := chain_nil_inv hch
          subst ho
          exact ⟨nx, [], by simp [wakeAllOuter], List.Perm.refl _⟩
      | cons wr rest =>
          have ho : o = some wr := chain_head hch
          subst ho
          have hcr : chain nx (nx wr) rest := by
            cases hch with
            | cons _ ob _ ha hcn => exact ha ▸ hcn
          have hrnd : rest.Nodup := chain_nodup hcr
          obtain ⟨nx2, nw2, heq, hchn⟩ :=
            wakeAllInner_spec cpu (cpu wr) rest (f + 1) nx (nx wr) (nx wr)
              [] (hs ++ [wr]) hcr (seg.nil _) (by simpa using hrnd)
              (by simp at hfl; omega)
          have hchn2 : chain nx2 nw2
              (rest.filter (fun x => ! (cpu x == cpu wr))) := by
            simpa using hchn
          obtain ⟨nx3, w3, heq3, hperm3⟩ :=
            ih (rest.filter (fun x => ! (cpu x == cpu wr))) nx2 nw2
              ((hs ++ [wr]) ++ rest.filter (fun x => cpu x == cpu wr))
              hchn2
              (le_trans (List.length_filter_le _ _) (by simp at hfl; omega))
          have hstep : wakeAllOuter cpu (f + 1) nx (some wr) hs =
              wakeAllOuter cpu f
                (wakeAllInner cpu (cpu wr) (f + 1) nx (nx wr) (nx wr) none
                  (hs ++ [wr])).1
                (wakeAllInner cpu (cpu wr) (f + 1) nx (nx wr) (nx wr) none
                  (hs ++ [wr])).2.1
                (wakeAllInner cpu (cpu wr) (f + 1) nx (nx wr) (nx wr) none
                  (hs ++ [wr])).2.2 := rfl
          refine ⟨nx3,
            wr :: (rest.filter (fun x => cpu x == cpu wr) ++ w3), ?_, ?_⟩
          · rw [hstep]
            rw [show (List.getLast? ([] : List Nat)) = none from rfl] at heq
            rw [heq, heq3]
            simp
          · refine List.Perm.cons wr ?_
            refine List.Perm.trans
              (List.Perm.append_left _ hperm3) ?_
            exact List.filter_append_perm _ rest

/-- In wait-morphing mode, `condvar_wake_all` performs one `send_lock`
through the snapshotted user mutex for every record of the FIFO snapshot —
no record is skipped or handed off twice. -/
theorem wake_all_morph {c : CondvarState} {l : List Nat} {cpu : Nat → Nat}
    {fuel : Nat} (hwf : WFl c l) (hfl : l.length ≤ fuel) :
    ∃ w, (condvar_wake_all true cpu fuel c).2 =
        w.map (Handoff.sendLock c.user_mutex) ∧ List.Perm w l := by
  by_cases ho : c.oldest = none
  · have hl : l = [] := by
      have hchain := hwf.1
      rw [ho] at hchain
      exact chain_none_iff hchain
    subst hl
    exact ⟨[], by simp [condvar_wake_all, ho], List.Perm.refl _⟩
  · obtain ⟨nx2, w, heq, hperm⟩ :=
      wakeAllOuter_spec cpu fuel l c.next c.oldest [] hwf.1 hfl
    refine ⟨w, ?_, hperm⟩
    simp only [condvar_wake_all, if_neg ho, if_true]
    rw [heq]
    simp

/-- Without wait morphing, `condvar_wake_all` calls `wake()` on every
snapshot record in FIFO order. -/
theorem wake_all_plain {c : CondvarState} {l : List Nat} {cpu : Nat → Nat}
    {fuel : Nat} (hwf : WFl c l) (hfl : l.length ≤ fuel) :
    (condvar_wake_all false cpu fuel c).2 = l.map Handoff.wake := by
  by_cases ho : c.oldest = none
  · have hl : l = [] := by
      have hchain := hwf.1
      rw [ho] at hchain
      exact chain_none_iff hchain
    subst hl
    simp [condvar_wake_all, ho]
  · simp only [condvar_wake_all, if_neg ho, Bool.false_eq_true, if_false]
    rw [simpleWalk_spec hwf.1 hfl]

/-- After `condvar_wake_all` the FIFO is empty. -/
theorem wake_all_state {wm : Bool} {c : CondvarState} {l : List Nat}
    {cpu : Nat → Nat} {fuel : Nat} (hwf : WFl c l) :
    WFl (condvar_wake_all wm cpu fuel c).1 [] := by
  by_cases ho : c.oldest = none
  · have hl : l = [] := by
      have hchain := hwf.1
      rw [ho] at hchain
      exact chain_none_iff hchain
    subst hl
    simpa [condvar_wake_all, ho] using hwf
  · cases wm <;>
      simp [condvar_wake_all, ho, WFl] <;>
      exact chain.nil

/-- A non-trivial `condvar_wake_all` in wait-morphing mode clears the
remembered user mutex (it snapshots and nulls it under the lock). -/
theorem wake_all_clears_um {c : CondvarState} {cpu : Nat → Nat}
    {fuel : Nat} (ho : c.oldest ≠ none) :
    (condvar_wake_all true cpu fuel c).1.user_mutex = none := by
  simp [condvar_wake_all, ho]

/-! Concrete states used by the witnesses. -/

/-- Empty condvar. -/
def cE : CondvarState := ⟨none, none, fun _ => none, none⟩

/-- Next map linking record 1 to record 2. -/
def nx12 : Nat → Option Nat := fun x => if x = 1 then some 2 else none

/-- Condvar with two waiters 1, 2 and remembered user mutex 7. -/
def c2r : CondvarState := ⟨some 1, some 2, nx12, some 7⟩

/-- Condvar with the single waiter 1 and remembered user mutex 7. -/
def c1r : CondvarState := ⟨some 1, some 1, fun _ => none, some 7⟩

/-- Empty condvar with a remembered user mutex 3. -/
def cM3 : CondvarState := ⟨none, none, fun _ => none, some 3⟩

/-- Next map linking 1 to 2 to 3. -/
def nx123 : Nat → Option Nat :=
  fun x => if x = 1 then some 2 else if x = 2 then some 3 else none

/-- Condvar with three waiters 1, 2, 3 and remembered user mutex 9. -/
def c3r : CondvarState := ⟨some 1, some 3, nx123, some 9⟩

/-- CPU assignment putting record 2 on CPU 1 and the rest on CPU 0. -/
def cpuW : Nat → Nat := fun x => if x = 2 then 1 else 0

theorem wf_cE : WFl cE [] := ⟨chain.nil, rfl⟩

theorem wf_c1r : WFl c1r [1] :=
  ⟨chain.cons 1 none [] rfl chain.nil, rfl⟩

theorem wf_c2r : WFl c2r [1, 2] :=
  ⟨chain.cons 1 (some 2) [2] rfl (chain.cons 2 none [] rfl chain.nil), rfl⟩

theorem wf_c3r : WFl c3r [1, 2, 3] :=
  ⟨chain.cons 1 (some 2) [2, 3] rfl
    (chain.cons 2 (some 3) [3] rfl (chain.cons 3 none [] rfl chain.nil)),
   rfl⟩

/-- The wait-morphing invariant: a non-empty waiter FIFO implies a non-null
remembered user mutex (so `condvar_wake_one`'s
`condvar->user_mutex->send_lock(wr)` dereferences a non-null pointer). -/
def morphInv (c : CondvarState) : Prop :=
  c.oldest ≠ none → c.user_mutex ≠ none

theorem morphInv_c2r : morphInv c2r := fun _ => by decide

/-! The claims. -/

/-- C1: on the timeout path (`woken()` false at condvar.cc line 57), if the
record is not found in the waiter FIFO the waiter re-enters `wr.wait()` with
no timer and `condvar_wait` returns 0 (ok), not ETIMEDOUT; ETIMEDOUT is
returned exactly when the timer fired and the waiter itself successfully
unlinked its record, which in particular requires the record to still be in
the FIFO. -/
theorem C1_timeout_race (wm : Bool) (fuel : Nat) (cMid : CondvarState)
    (l : List Nat) (wr : Nat) (hwf : WFl cMid l) :
    (wr ∉ l →
      condvar_wait_resume wm fuel cMid wr false =
        (cMid, { ret := 0, secondWait := true,
                 reacquire := if wm then .receiveLock else .mutexLock })) ∧
    (∀ woken1 : Bool,
      (condvar_wait_resume wm fuel cMid wr woken1).2.ret = ETIMEDOUT ↔
        (woken1 = false ∧ (condvar_timeout_remove fuel cMid wr).2 = true)) ∧
    ((condvar_timeout_remove fuel cMid wr).2 = true → wr ∈ l) := by
  refine ⟨?_, ?_, ?_⟩
  · intro hmem
    have hrm := remove_not_mem hwf hmem fuel
    simp [condvar_wait_resume, hrm]
  · intro woken1
    cases woken1 with
    | true => simp [condvar_wait_resume, ETIMEDOUT]
    | false =>
        by_cases hrm : (condvar_timeout_remove fuel cMid wr).2 = true
        · simp [condvar_wait_resume, hrm, ETIMEDOUT]
        · have hrm2 : (condvar_timeout_remove fuel cMid wr).2 = false := by
            simpa using hrm
          simp [condvar_wait_resume, hrm2, ETIMEDOUT]
  · intro hrm
    by_contra hmem
    rw [remove_not_mem hwf hmem fuel] at hrm
    simp at hrm

theorem C1_timeout_race_witness :
    condvar_wait_resume true 1 c2r 5 false =
      (c2r, { ret := 0, secondWait := true,
              reacquire := Reacquire.receiveLock }) ∧
    ((condvar_timeout_remove 1 c2r 2).2 = true → 2 ∈ [1, 2]) :=
  ⟨(C1_timeout_race true 1 c2r [1, 2] 5 wf_c2r).1 (by decide),
   (C1_timeout_race true 1 c2r [1, 2] 2 wf_c2r).2.2⟩

/-- C2 (counterexample): the claim asserts the remembered user mutex is
cleared by EVERY operation that empties the FIFO, including the timeout path
of `condvar_wait`.  The code's timeout path (condvar.cc lines 59-82) never
touches `user_mutex`: here the unlink of the last record 1 drains the FIFO
(`oldest` and `newest` become null) yet `user_mutex` stays `some 7`. -/
theorem C2_clear_on_drain_cex :
    (condvar_timeout_remove 1 c1r 1).2 = true ∧
    (condvar_timeout_remove 1 c1r 1).1.oldest = none ∧
    (condvar_timeout_remove 1 c1r 1).1.newest = none ∧
    (condvar_timeout_remove 1 c1r 1).1.user_mutex = some 7 :=
  ⟨rfl, rfl, rfl, rfl⟩

/-- C2 (amended): in wait-morphing mode the remembered user mutex is cleared
when a `condvar_wake_one` dequeue leaves the FIFO empty and by every
`condvar_wake_all` that finds the FIFO non-empty; the timeout path of
`condvar_wait` never modifies the pointer, even when its unlink drains the
FIFO. -/
theorem C2_clear_on_drain_amended (cpu : Nat → Nat) (fuel : Nat) :
    (∀ c a rest, WFl c (a :: rest) →
      (condvar_wake_one true c).1.oldest = none →
      (condvar_wake_one true c).1.user_mutex = none) ∧
    (∀ c : CondvarState, c.oldest ≠ none →
      (condvar_wake_all true cpu fuel c).1.user_mutex = none) ∧
    (∀ c wr, (condvar_timeout_remove fuel c wr).1.user_mutex =
      c.user_mutex) := by
  refine ⟨?_, ?_, ?_⟩
  · intro c a rest hwf hO
    have ho : c.oldest = some a := chain_head hwf.1
    by_cases hn : c.next a = none
    · simp [condvar_wake_one, ho, hn]
    · exfalso
      simp [condvar_wake_one, ho, hn] at hO
  · intro c ho
    exact wake_all_clears_um ho
  · intro c wr
    exact remove_user_mutex fuel c wr

theorem C2_clear_on_drain_amended_witness :
    (condvar_wake_one true c1r).1.user_mutex = none ∧
    (condvar_wake_all true cpuW 2 c2r).1.user_mutex = none ∧
    (condvar_timeout_remove 1 c2r 2).1.user_mutex = c2r.user_mutex :=
  ⟨(C2_clear_on_drain_amended cpuW 2).1 c1r 1 [] wf_c1r rfl,
   (C2_clear_on_drain_amended cpuW 2).2.1 c2r (by decide),
   (C2_clear_on_drain_amended cpuW 1).2.2 c2r 2⟩

/-- C3: the waiter FIFO is well formed and stays so: `oldest` is null iff
`newest` is null, the chain is finite and acyclic (a duplicate-free list
describes it), and well-formedness is preserved by the enqueue of
`condvar_wait`, a `condvar_wake_one` dequeue, a `condvar_wake_all` detach-all
and the timeout-path removal (head, interior or tail — with `newest` updated
— as well as the record-absent case, which leaves the state unchanged). -/
theorem C3_fifo_wf (wm : Bool) :
    (∀ c l, WFl c l → ((c.oldest = none ↔ c.newest = none) ∧ l.Nodup)) ∧
    (∀ c l wr um c1, WFl c l → c.next wr = none → wr ∉ l →
      condvar_wait_enqueue wm c wr um = some c1 → WFl c1 (l ++ [wr])) ∧
    (∀ c l, WFl c l → WFl (condvar_wake_one wm c).1 l.tail) ∧
    (∀ c l cpu fuel, WFl c l → WFl (condvar_wake_all wm cpu fuel c).1 []) ∧
    (∀ c l1 l2 wr fuel, WFl c (l1 ++ wr :: l2) → l1.length ≤ fuel →
      WFl (condvar_timeout_remove fuel c wr).1 (l1 ++ l2)) ∧
    (∀ c l wr fuel, WFl c l → wr ∉ l →
      condvar_timeout_remove fuel c wr = (c, false)) := by
  refine ⟨?_, ?_, ?_, ?_, ?_, ?_⟩
  · intro c l hwf
    refine ⟨⟨fun ho => ?_, fun hn => ?_⟩, chain_nodup hwf.1⟩
    · have hchain := hwf.1
      rw [ho] at hchain
      rw [hwf.2, chain_none_iff hchain]
      rfl
    · rw [hwf.2] at hn
      have hl : l = [] := List.getLast?_eq_none_iff.mp hn
      rw [hl] at hwf
      exact chain_nil_inv hwf.1
  · intro c l wr um c1 hwf hfr hmem henq
    exact enqueue_wf hwf hfr hmem henq
  · intro c l hwf
    cases l with
    | nil =>
        rw [wake_one_empty hwf rfl]
        exact hwf
    | cons a rest => exact (wake_one_cons hwf).2
  · intro c l cpu fuel hwf
    exact wake_all_state hwf
  · intro c l1 l2 wr fuel hwf hfl
    exact (remove_found hwf hfl).2
  · intro c l wr fuel hwf hmem
    exact remove_not_mem hwf hmem fuel

theorem C3_fifo_wf_witness :
    ((c2r.oldest = none ↔ c2r.newest = none) ∧ ([1, 2] : List Nat).Nodup) ∧
    WFl ((condvar_wait_enqueue true c2r 5 (some 7)).getD cE) ([1, 2] ++ [5]) ∧
    WFl (condvar_wake_one true c2r).1 [2] ∧
    WFl (condvar_wake_all true cpuW 2 c2r).1 [] ∧
    WFl (condvar_timeout_remove 1 c2r 2).1 ([1] ++ []) ∧
    condvar_timeout_remove 1 c2r 5 = (c2r, false) :=
  ⟨(C3_fifo_wf true).1 c2r [1, 2] wf_c2r,
   (C3_fifo_wf true).2.1 c2r [1, 2] 5 (some 7) _ wf_c2r rfl (by decide) rfl,
   (C3_fifo_wf true).2.2.1 c2r [1, 2] wf_c2r,
   (C3_fifo_wf true).2.2.2.1 c2r [1, 2] cpuW 2 wf_c2r,
   (C3_fifo_wf true).2.2.2.2.1 c2r [1] [] 2 1 wf_c2r (by decide),
   (C3_fifo_wf true).2.2.2.2.2 c2r [1, 2] 5 1 wf_c2r (by decide)⟩

/-- C4: the walk of `condvar_wake_all` performs exactly one handoff per
snapshot record — `send_lock` through the snapshotted user mutex in
wait-morphing mode (in some order, because of the CPU-affinity grouping that
splices records out early), `wake()` in FIFO order otherwise — and every
record of the snapshot is handed off exactly once, none twice or skipped. -/
theorem C4_wake_all_handoffs (cpu : Nat → Nat) (c : CondvarState)
    (l : List Nat) (fuel : Nat) (hwf : WFl c l) (hfl : l.length ≤ fuel) :
    (∃ w, (condvar_wake_all true cpu fuel c).2 =
        w.map (Handoff.sendLock c.user_mutex) ∧ List.Perm w l ∧
        ∀ r ∈ l, w.count r = 1) ∧
    (condvar_wake_all false cpu fuel c).2 = l.map Handoff.wake := by
  constructor
  · obtain ⟨w, heq, hperm⟩ := wake_all_morph hwf hfl
    refine ⟨w, heq, hperm, ?_⟩
    intro r hr
    rw [hperm.count_eq]
    exact List.count_eq_one_of_mem (chain_nodup hwf.1) hr
  · exact wake_all_plain hwf hfl

theorem C4_wake_all_handoffs_witness :
    (∃ w, (condvar_wake_all true cpuW 3 c3r).2 =
        w.map (Handoff.sendLock c3r.user_mutex) ∧ List.Perm w [1, 2, 3] ∧
        ∀ r ∈ [1, 2, 3], w.count r = 1) ∧
    (condvar_wake_all false cpuW 3 c3r).2 = [1, 2, 3].map Handoff.wake :=
  C4_wake_all_handoffs cpuW c3r [1, 2, 3] 3 wf_c3r (by decide)

/-- C5: `condvar_wake_one` dequeues exactly the oldest record when the FIFO
is non-empty at the moment the internal mutex is taken, and nothing
otherwise; the remaining records keep their relative FIFO order. -/
theorem C5_wake_one_dequeue (wm : Bool) (c : CondvarState) (l : List Nat)
    (hwf : WFl c l) :
    (l = [] → condvar_wake_one wm c = (c, [])) ∧
    (∀ a rest, l = a :: rest →
      (condvar_wake_one wm c).2.map Handoff.target = [a] ∧
      WFl (condvar_wake_one wm c).1 rest) := by
  refine ⟨fun he => wake_one_empty hwf he, ?_⟩
  intro a rest he
  subst he
  exact wake_one_cons hwf

theorem C5_wake_one_dequeue_witness :
    ((condvar_wake_one true c2r).2.map Handoff.target = [1] ∧
      WFl (condvar_wake_one true c2r).1 [2]) ∧
    condvar_wake_one true cE = (cE, []) :=
  ⟨(C5_wake_one_dequeue true c2r [1, 2] wf_c2r).2 1 [2] rfl,
   (C5_wake_one_dequeue true cE [] wf_cE).1 rfl⟩

/-- C6: on every return path of `condvar_wait` exactly one user-mutex
reacquisition action runs: `receive_lock` (non-blocking, ownership already
transferred by wait morphing) exactly when morphing is on and the wait
succeeded, a plain `mutex_lock` on the timed-out path and in non-morphing
mode. -/
theorem C6_mutex_reacquire (wm : Bool) (fuel : Nat) (c : CondvarState)
    (wr : Nat) (um : Option Nat) (tmr : Option Nat) (cMid : CondvarState)
    (signalled : Bool) (c2 : CondvarState) (o : WaitOutcome)
    (h : condvar_wait_tmr wm fuel c wr um tmr cMid signalled =
      some (c2, o)) :
    (o.reacquire = Reacquire.receiveLock ∨
      o.reacquire = Reacquire.mutexLock) ∧
    (o.reacquire = Reacquire.receiveLock ↔ (wm = true ∧ o.ret = 0)) ∧
    (o.ret = ETIMEDOUT → o.reacquire = Reacquire.mutexLock) := by
  unfold condvar_wait_tmr at h
  rw [Option.map_eq_some'] at h
  obtain ⟨ce, _, hmap⟩ := h
  have ho : o = (condvar_wait_resume wm fuel cMid wr
      (waitReturnsWoken tmr signalled)).2 := by rw [hmap]
  subst ho
  set w1 := waitReturnsWoken tmr signalled with hw1
  by_cases hwo : w1 = true
  · cases wm <;> simp [condvar_wait_resume, hwo, ETIMEDOUT]
  · have hwo2 : w1 = false := by simpa using hwo
    by_cases hrm : (condvar_timeout_remove fuel cMid wr).2 = true
    · cases wm <;> simp [condvar_wait_resume, hwo2, hrm, ETIMEDOUT]
    · have hrm2 : (condvar_timeout_remove fuel cMid wr).2 = false := by
        simpa using hrm
      cases wm <;> simp [condvar_wait_resume, hwo2, hrm2, ETIMEDOUT]

theorem C6_mutex_reacquire_witness :
    (WaitOutcome.reacquire ⟨0, false, Reacquire.receiveLock⟩ =
        Reacquire.receiveLock ∨
      WaitOutcome.reacquire ⟨0, false, Reacquire.receiveLock⟩ =
        Reacquire.mutexLock) ∧
    (WaitOutcome.reacquire ⟨0, false, Reacquire.receiveLock⟩ =
        Reacquire.receiveLock ↔
      (true = true ∧ WaitOutcome.ret ⟨0, false, Reacquire.receiveLock⟩ = 0)) ∧
    (WaitOutcome.ret ⟨0, false, Reacquire.receiveLock⟩ = ETIMEDOUT →
      WaitOutcome.reacquire ⟨0, false, Reacquire.receiveLock⟩ =
        Reacquire.mutexLock) :=
  C6_mutex_reacquire true 0 cE 4 (some 7) none cE false cE
    ⟨0, false, Reacquire.receiveLock⟩ rfl

/-- C7: in wait-morphing mode, entering `condvar_wait` while the remembered
user mutex is non-null and different from the supplied one aborts (the
assert at condvar.cc line 45, modelled as `none`); when the remembered
pointer is null or equal, the wait proceeds and stores the supplied mutex. -/
theorem C7_mixed_mutex_assert (c : CondvarState) (wr : Nat)
    (um : Option Nat) :
    (c.user_mutex ≠ none → c.user_mutex ≠ um →
      condvar_wait_enqueue true c wr um = none) ∧
    (c.user_mutex = none ∨ c.user_mutex = um →
      ∃ c1, condvar_wait_enqueue true c wr um = some c1 ∧
        c1.user_mutex = um) := by
  constructor
  · intro h1 h2
    have hcond : ¬ (c.user_mutex = none ∨ c.user_mutex = um) := by
      intro hc
      cases hc with
      | inl hx => exact h1 hx
      | inr hx => exact h2 hx
    simp [condvar_wait_enqueue, hcond]
  · intro hok
    have hstep : condvar_wait_enqueue true c wr um =
        some { (if c.oldest = none then
                  { c with oldest := some wr, newest := some wr }
                else
                  { c with next := fun x => if c.newest = some x then some wr
                                            else c.next x,
                           newest := some wr }) with user_mutex := um } := by
      simp [condvar_wait_enqueue, hok]
    exact ⟨_, hstep, rfl⟩

theorem C7_mixed_mutex_assert_witness :
    condvar_wait_enqueue true cM3 1 (some 4) = none ∧
    ∃ c1, condvar_wait_enqueue true cM3 1 (some 3) = some c1 ∧
      c1.user_mutex = some 3 :=
  ⟨(C7_mixed_mutex_assert cM3 1 (some 4)).1 (by decide) (by decide),
   (C7_mixed_mutex_assert cM3 1 (some 3)).2 (Or.inr rfl)⟩

/-- C8: from an empty FIFO, one enqueue followed by one `condvar_wake_one`
leaves the FIFO empty again, and `condvar_wake_one` on an empty FIFO leaves
the condvar state entirely unchanged. -/
theorem C8_enqueue_wake_one (wm : Bool) (c : CondvarState) (wr : Nat)
    (um : Option Nat) (c1 : CondvarState)
    (ho : c.oldest = none) (hn2 : c.newest = none) (hfr : c.next wr = none)
    (henq : condvar_wait_enqueue wm c wr um = some c1) :
    ((condvar_wake_one wm c1).1.oldest = none ∧
     (condvar_wake_one wm c1).1.newest = none) ∧
    condvar_wake_one wm c = (c, []) := by
  have hwfE : WFl c [] := ⟨by rw [ho]; exact chain.nil, by rw [hn2]; rfl⟩
  have hwf1 : WFl c1 [wr] := by
    have := enqueue_wf hwfE hfr (by simp) henq
    simpa using this
  have hw := (@wake_one_cons wm c1 wr [] hwf1).2
  refine ⟨⟨chain_nil_inv hw.1, by simpa using hw.2⟩, ?_⟩
  simp [condvar_wake_one, ho]

theorem C8_enqueue_wake_one_witness :
    ((condvar_wake_one true
        ((condvar_wait_enqueue true cE 3 (some 7)).getD cE)).1.oldest =
          none ∧
     (condvar_wake_one true
        ((condvar_wait_enqueue true cE 3 (some 7)).getD cE)).1.newest =
          none) ∧
    condvar_wake_one true cE = (cE, []) :=
  C8_enqueue_wake_one true cE 3 (some 7) _ rfl rfl rfl rfl

/-- C9: in the integer-expiration overload of `condvar_wait`, expiration 0
means no timer at all — the wait can never return ETIMEDOUT — while any
non-zero expiration arms a timer set to that absolute time. -/
theorem C9_zero_expiration (wm : Bool) (fuel : Nat) (c : CondvarState)
    (wr : Nat) (um : Option Nat) (cMid : CondvarState) (signalled : Bool) :
    (condvar_wait_int wm fuel c wr um 0 cMid signalled =
      condvar_wait_tmr wm fuel c wr um none cMid signalled) ∧
    (∀ c2 o, condvar_wait_tmr wm fuel c wr um none cMid signalled =
        some (c2, o) → o.ret = 0) ∧
    (∀ e : Nat, e ≠ 0 →
      condvar_wait_int wm fuel c wr um e cMid signalled =
        condvar_wait_tmr wm fuel c wr um (some e) cMid signalled) := by
  refine ⟨by simp [condvar_wait_int], ?_, ?_⟩
  · intro c2 o h
    unfold condvar_wait_tmr at h
    rw [Option.map_eq_some'] at h
    obtain ⟨ce, _, hmap⟩ := h
    have ho : o = (condvar_wait_resume wm fuel cMid wr
        (waitReturnsWoken none signalled)).2 := by rw [hmap]
    rw [ho]
    simp [condvar_wait_resume, waitReturnsWoken]
  · intro e he
    simp [condvar_wait_int, he]

theorem C9_zero_expiration_witness :
    (condvar_wait_int true 0 cE 4 (some 7) 0 cE false =
      condvar_wait_tmr true 0 cE 4 (some 7) none cE false) ∧
    WaitOutcome.ret ⟨0, false, Reacquire.receiveLock⟩ = 0 ∧
    (condvar_wait_int true 0 cE 4 (some 7) 5 cE false =
      condvar_wait_tmr true 0 cE 4 (some 7) (some 5) cE false) :=
  ⟨(C9_zero_expiration true 0 cE 4 (some 7) cE false).1,
   (C9_zero_expiration true 0 cE 4 (some 7) cE false).2.1 cE
     ⟨0, false, Reacquire.receiveLock⟩ rfl,
   (C9_zero_expiration true 0 cE 4 (some 7) cE false).2.2 5 (by decide)⟩

/-- C10: in wait-morphing mode, if every wait supplies a non-null user
mutex, the invariant "non-empty FIFO implies non-null remembered user mutex"
is established by the enqueue and preserved by wake-one, wake-all and the
timeout removal; hence the `condvar->user_mutex->send_lock(wr)` dereference
of `condvar_wake_one` on a non-empty FIFO never sees a null pointer. -/
theorem C10_morph_inv (cpu : Nat → Nat) (fuel : Nat) :
    (∀ c wr m c1, condvar_wait_enqueue true c wr (some m) = some c1 →
      morphInv c1) ∧
    (∀ c, morphInv c → morphInv (condvar_wake_one true c).1) ∧
    (∀ c, morphInv c → morphInv (condvar_wake_all true cpu fuel c).1) ∧
    (∀ c wr, morphInv c → morphInv (condvar_timeout_remove fuel c wr).1) ∧
    (∀ c, morphInv c → ∀ h ∈ (condvar_wake_one true c).2,
      ∃ m r, h = Handoff.sendLock (some m) r) := by
  refine ⟨?_, ?_, ?_, ?_, ?_⟩
  · intro c wr m c1 henq
    simp only [condvar_wait_enqueue, if_true] at henq
    split at henq
    · rw [Option.some.injEq] at henq
      intro _
      rw [← henq]
      simp
    · exact absurd henq (by simp)
  · intro c hP
    by_cases ho : c.oldest = none
    · have hres : (condvar_wake_one true c).1 = c := by
        simp [condvar_wake_one, ho]
      rw [hres]
      exact hP
    · obtain ⟨a, ha⟩ := Option.ne_none_iff_exists'.mp ho
      by_cases hn : c.next a = none
      · intro habs
        simp [condvar_wake_one, ha, hn] at habs
      · intro _
        have hres : (condvar_wake_one true c).1.user_mutex = c.user_mutex := by
          simp [condvar_wake_one, ha, hn]
        rw [hres]
        exact hP ho
  · intro c hP
    by_cases ho : c.oldest = none
    · have hres : (condvar_wake_all true cpu fuel c).1 = c := by
        simp [condvar_wake_all, ho]
      rw [hres]
      exact hP
    · intro habs
      simp [condvar_wake_all, ho] at habs
  · intro c wr hP
    unfold condvar_timeout_remove
    split
    next hcond =>
      intro _
      exact hP (by rw [hcond]; simp)
    next hcond =>
      split
      next p hfind =>
        intro habs
        exact hP habs
      next hfind => exact hP
  · intro c hP h hmem
    by_cases ho : c.oldest = none
    · simp [condvar_wake_one, ho] at hmem
    · obtain ⟨a, ha⟩ := Option.ne_none_iff_exists'.mp ho
      obtain ⟨m, hm⟩ := Option.ne_none_iff_exists'.mp (hP ho)
      by_cases hn : c.next a = none
      · simp [condvar_wake_one, ha, hn] at hmem
        exact ⟨m, a, by rw [hmem, hm]⟩
      · simp [condvar_wake_one, ha, hn] at hmem
        exact ⟨m, a, by rw [hmem, hm]⟩

theorem C10_morph_inv_witness :
    morphInv ((condvar_wait_enqueue true cE 1 (some 2)).getD cE) ∧
    morphInv (condvar_wake_one true c2r).1 ∧
    morphInv (condvar_wake_all true cpuW 2 c2r).1 ∧
    morphInv (condvar_timeout_remove 1 c2r 2).1 ∧
    (∀ h ∈ (condvar_wake_one true c2r).2,
      ∃ m r, h = Handoff.sendLock (some m) r) :=
  ⟨(C10_morph_inv cpuW 2).1 cE 1 2 _ rfl,
   (C10_morph_inv cpuW 2).2.1 c2r morphInv_c2r,
   (C10_morph_inv cpuW 2).2.2.1 c2r morphInv_c2r,
   (C10_morph_inv cpuW 1).2.2.2.1 c2r 2 morphInv_c2r,
   (C10_morph_inv cpuW 2).2.2.2.2 c2r morphInv_c2r⟩

end OSV
